import Mathlib

/-!
Shallow embedding of the per-core network device layer of `net/net.hh`
(namespace `net`): the `forward_hash` accumulator, the `qp` queue pair with
its `poll_tx` batching loop, and the `device` queue table with its
`forward_dst` / `hash2cpu` routing policy.

Machine integers are modelled as `Nat` with explicit truncation (`% 2 ^ w`)
at the points where the C++ parameter types truncate.  Fatal assertions and
C++ undefined behaviour (null queue-pair dereference, out-of-bounds slot
access) are modelled by `Option`: `none` is an aborted execution.
-/

namespace net

/-- Packets are opaque, move-only buffers; we model them by an identifier. -/
abbrev Packet := Nat

/-! ## forward_hash (the hash-key accumulator) -/

/-- `forward_hash`: `uint8_t data[64]` plus a write cursor `end_idx`.  We keep
the written bytes as a list; `end_idx` is its length. -/
structure ForwardHash where
  data : List Nat
deriving DecidableEq

/-- A fresh accumulator (`end_idx = 0`). -/
def fhInit : ForwardHash := ⟨[]⟩

/-- `size()` returns `end_idx`. -/
def ForwardHash.size (fh : ForwardHash) : Nat := fh.data.length

/-- `operator[](idx)`: read the byte at `idx`. -/
def ForwardHash.byteAt (fh : ForwardHash) (i : Nat) : Nat := fh.data.getD i 0

/-- `push_back(uint8_t b)`: `assert(end_idx < sizeof(data)); data[end_idx++] = b;`
The argument is truncated to 8 bits (the parameter type); a firing assertion
is `none`. -/
def pushBack8 (fh : ForwardHash) (b : Nat) : Option ForwardHash :=
  if fh.data.length < 64 then some ⟨fh.data ++ [b % 2 ^ 8]⟩ else none

/-- `push_back(uint16_t b)`: `push_back(uint8_t(b)); push_back(uint8_t(b >> 8));` -/
def pushBack16 (fh : ForwardHash) (b : Nat) : Option ForwardHash :=
  (pushBack8 fh (b % 2 ^ 16)).bind fun fh2 => pushBack8 fh2 (b % 2 ^ 16 / 2 ^ 8)

/-- `push_back(uint32_t b)`: `push_back(uint16_t(b)); push_back(uint16_t(b >> 16));` -/
def pushBack32 (fh : ForwardHash) (b : Nat) : Option ForwardHash :=
  (pushBack16 fh (b % 2 ^ 32)).bind fun fh2 => pushBack16 fh2 (b % 2 ^ 32 / 2 ^ 16)

/-- One append operation at one of the three supported granularities. -/
inductive Push
  | u8 (b : Nat)
  | u16 (b : Nat)
  | u32 (b : Nat)
deriving DecidableEq

/-- Number of raw bytes an operation appends. -/
def Push.byteLen : Push → Nat
  | .u8 _ => 1
  | .u16 _ => 2
  | .u32 _ => 4

/-- The little-endian byte decomposition an operation is specified to append
(least significant byte first). -/
def Push.bytes : Push → List Nat
  | .u8 b => [b % 2 ^ 8]
  | .u16 b => [b % 2 ^ 8, b / 2 ^ 8 % 2 ^ 8]
  | .u32 b => [b % 2 ^ 8, b / 2 ^ 8 % 2 ^ 8, b / 2 ^ 16 % 2 ^ 8, b / 2 ^ 24 % 2 ^ 8]

/-- Dispatch one append to the overload of the matching width. -/
def applyPush (fh : ForwardHash) : Push → Option ForwardHash
  | .u8 b => pushBack8 fh b
  | .u16 b => pushBack16 fh b
  | .u32 b => pushBack32 fh b

/-- Run a sequence of appends, aborting as soon as the assertion fires. -/
def applyPushes (fh : ForwardHash) : List Push → Option ForwardHash
  | [] => some fh
  | p :: rest => (applyPush fh p).bind fun fh2 => applyPushes fh2 rest

theorem pushBack8_of_room (fh : ForwardHash) (b : Nat) (h : fh.data.length + 1 ≤ 64) :
    pushBack8 fh b = some ⟨fh.data ++ [b % 2 ^ 8]⟩ := by
  simp only [pushBack8]
  rw [if_pos (by omega)]

theorem pushBack16_of_room (fh : ForwardHash) (b : Nat) (h : fh.data.length + 2 ≤ 64) :
    pushBack16 fh b = some ⟨fh.data ++ [b % 2 ^ 8, b / 2 ^ 8 % 2 ^ 8]⟩ := by
  have h1 : b % 2 ^ 16 % 2 ^ 8 = b % 2 ^ 8 := by omega
  have h2 : b % 2 ^ 16 / 2 ^ 8 = b / 2 ^ 8 % 2 ^ 8 := by omega
  have h3 : b / 2 ^ 8 % 2 ^ 8 % 2 ^ 8 = b / 2 ^ 8 % 2 ^ 8 := by omega
  have step1 := pushBack8_of_room fh (b % 2 ^ 16) (by omega)
  rw [h1] at step1
  have step2 := pushBack8_of_room ⟨fh.data ++ [b % 2 ^ 8]⟩ (b / 2 ^ 8 % 2 ^ 8)
    (by simp only [List.length_append, List.length_cons, List.length_nil]; omega)
  rw [h3] at step2
  simp only [pushBack16]
  rw [step1, Option.some_bind, h2, step2]
  simp

theorem pushBack32_of_room (fh : ForwardHash) (b : Nat) (h : fh.data.length + 4 ≤ 64) :
    pushBack32 fh b =
      some ⟨fh.data ++ [b % 2 ^ 8, b / 2 ^ 8 % 2 ^ 8, b / 2 ^ 16 % 2 ^ 8, b / 2 ^ 24 % 2 ^ 8]⟩ := by
  have e1 : b % 2 ^ 32 % 2 ^ 8 = b % 2 ^ 8 := by omega
  have e2 : b % 2 ^ 32 / 2 ^ 8 % 2 ^ 8 = b / 2 ^ 8 % 2 ^ 8 := by omega
  have e3 : b % 2 ^ 32 / 2 ^ 16 % 2 ^ 8 = b / 2 ^ 16 % 2 ^ 8 := by omega
  have e4 : b % 2 ^ 32 / 2 ^ 16 / 2 ^ 8 % 2 ^ 8 = b / 2 ^ 24 % 2 ^ 8 := by omega
  have step1 := pushBack16_of_room fh (b % 2 ^ 32) (by omega)
  rw [e1, e2] at step1
  have step2 := pushBack16_of_room
    ⟨fh.data ++ [b % 2 ^ 8, b / 2 ^ 8 % 2 ^ 8]⟩ (b % 2 ^ 32 / 2 ^ 16)
    (by simp only [List.length_append, List.length_cons, List.length_nil]; omega)
  rw [e3, e4] at step2
  simp only [pushBack32]
  rw [step1, Option.some_bind, step2]
  simp

theorem applyPush_of_room (fh : ForwardHash) (p : Push)
    (h : fh.data.length + p.byteLen ≤ 64) :
    applyPush fh p = some ⟨fh.data ++ p.bytes⟩ := by
  cases p with
  | u8 b => exact pushBack8_of_room fh b h
  | u16 b => exact pushBack16_of_room fh b h
  | u32 b => exact pushBack32_of_room fh b h

theorem bytes_length_eq_byteLen (p : Push) : p.bytes.length = p.byteLen := by
  cases p <;> rfl

theorem applyPushes_of_room (ps : List Push) (fh : ForwardHash)
    (h : fh.data.length + (ps.map Push.byteLen).sum ≤ 64) :
    applyPushes fh ps = some ⟨fh.data ++ (ps.map Push.bytes).flatten⟩ := by
  induction ps generalizing fh with
  | nil => simp [applyPushes]
  | cons p rest ih =>
    have hsum : fh.data.length + p.byteLen + (rest.map Push.byteLen).sum ≤ 64 := by
      simp only [List.map_cons, List.sum_cons] at h
      omega
    rw [applyPushes, applyPush_of_room fh p (by omega), Option.some_bind,
      ih ⟨fh.data ++ p.bytes⟩
        (by simp only [List.length_append, bytes_length_eq_byteLen]; omega)]
    simp [List.append_assoc]

theorem bytes_flatten_length (ps : List Push) :
    ((ps.map Push.bytes).flatten).length = (ps.map Push.byteLen).sum := by
  induction ps with
  | nil => rfl
  | cons p rest ih =>
    simp only [List.map_cons, List.flatten_cons, List.length_append, List.sum_cons,
      bytes_length_eq_byteLen, ih]

/-- **C6.** For every mix of 1/2/4-byte pushes whose total decomposed byte
count is at most 64, starting from a fresh accumulator: every push succeeds,
`size()` equals the total number of bytes appended, and the indexed read at
each `i < size()` returns the `i`-th appended byte in order. -/
theorem hashAccumulator_roundtrip (ps : List Push)
    (h : (ps.map Push.byteLen).sum ≤ 64) :
    ∃ fh : ForwardHash, applyPushes fhInit ps = some fh ∧
      fh.size = (ps.map Push.byteLen).sum ∧
      fh.data = (ps.map Push.bytes).flatten ∧
      ∀ i, i < fh.size → fh.byteAt i = ((ps.map Push.bytes).flatten).getD i 0 := by
  refine ⟨⟨(ps.map Push.bytes).flatten⟩, ?_, ?_, rfl, fun i _ => rfl⟩
  · have := applyPushes_of_room ps fhInit (by simpa [fhInit] using h)
    simpa [fhInit] using this
  · simpa [ForwardHash.size] using bytes_flatten_length ps

/-- Witness for C6 at a concrete mixed push sequence. -/
theorem hashAccumulator_roundtrip_witness :
    ([Push.u32 0x04030201, Push.u16 0x0605, Push.u8 7].map Push.byteLen).sum ≤ 64 ∧
    ∃ fh : ForwardHash,
      applyPushes fhInit [Push.u32 0x04030201, Push.u16 0x0605, Push.u8 7] = some fh ∧
      fh.size = ([Push.u32 0x04030201, Push.u16 0x0605, Push.u8 7].map Push.byteLen).sum ∧
      fh.data = ([Push.u32 0x04030201, Push.u16 0x0605, Push.u8 7].map Push.bytes).flatten ∧
      ∀ i, i < fh.size →
        fh.byteAt i =
          (([Push.u32 0x04030201, Push.u16 0x0605, Push.u8 7].map Push.bytes).flatten).getD i 0 :=
  ⟨by decide, hashAccumulator_roundtrip _ (by decide)⟩

/-- **C7.** For every 32-bit `x` and accumulator with at least 4 bytes of
remaining capacity, `push_back(uint32_t x)` equals `push_back(uint16_t)` of
the low half followed by the high half, and the decomposition appended is
little-endian (least significant byte first). -/
theorem pushBack32_split (fh : ForwardHash) (x : Nat) (hx : x < 2 ^ 32)
    (hcap : fh.size + 4 ≤ 64) :
    pushBack32 fh x =
      (pushBack16 fh (x % 2 ^ 16)).bind (fun fh2 => pushBack16 fh2 (x / 2 ^ 16)) ∧
    pushBack32 fh x =
      some ⟨fh.data ++ [x % 2 ^ 8, x / 2 ^ 8 % 2 ^ 8, x / 2 ^ 16 % 2 ^ 8, x / 2 ^ 24 % 2 ^ 8]⟩ := by
  constructor
  · have e : x % 2 ^ 16 % 2 ^ 16 = x % 2 ^ 16 := Nat.mod_mod_of_dvd _ dvd_rfl
    simp only [pushBack32, pushBack16, Nat.mod_eq_of_lt hx, e]
  · exact pushBack32_of_room fh x hcap

/-- Witness for C7 at `x = 0x11223344` on a fresh accumulator. -/
theorem pushBack32_split_witness :
    (0x11223344 < 2 ^ 32 ∧ fhInit.size + 4 ≤ 64) ∧
    (pushBack32 fhInit 0x11223344 =
      (pushBack16 fhInit (0x11223344 % 2 ^ 16)).bind
        (fun fh2 => pushBack16 fh2 (0x11223344 / 2 ^ 16)) ∧
    pushBack32 fhInit 0x11223344 =
      some ⟨fhInit.data ++ [0x11223344 % 2 ^ 8, 0x11223344 / 2 ^ 8 % 2 ^ 8,
        0x11223344 / 2 ^ 16 % 2 ^ 8, 0x11223344 / 2 ^ 24 % 2 ^ 8]⟩) :=
  ⟨⟨by decide, by decide⟩, pushBack32_split fhInit 0x11223344 (by decide) (by decide)⟩

theorem pushBack8_size (fh : ForwardHash) (b : Nat) (fh2 : ForwardHash)
    (hg : pushBack8 fh b = some fh2) : fh2.size = fh.size + 1 := by
  simp only [pushBack8] at hg
  split at hg
  · cases hg
    simp [ForwardHash.size]
  · cases hg

theorem pushBack8_isSome (fh : ForwardHash) (b : Nat) :
    (pushBack8 fh b).isSome ↔ fh.size + 1 ≤ 64 := by
  simp only [pushBack8, ForwardHash.size]
  split
  · simpa using by omega
  · simpa using by omega

theorem pushBack16_size (fh : ForwardHash) (b : Nat) (fh2 : ForwardHash)
    (hg : pushBack16 fh b = some fh2) : fh2.size = fh.size + 2 := by
  rw [pushBack16, Option.bind_eq_some] at hg
  obtain ⟨g1, hg1, hg2⟩ := hg
  have := pushBack8_size _ _ _ hg1
  have := pushBack8_size _ _ _ hg2
  omega

theorem pushBack16_isSome (fh : ForwardHash) (b : Nat) :
    (pushBack16 fh b).isSome ↔ fh.size + 2 ≤ 64 := by
  constructor
  · intro hs
    rw [Option.isSome_iff_exists] at hs
    obtain ⟨g2, hg2⟩ := hs
    rw [pushBack16, Option.bind_eq_some] at hg2
    obtain ⟨g1, hg1, hg1'⟩ := hg2
    have e1 := pushBack8_size _ _ _ hg1
    have l2 := (pushBack8_isSome g1 _).mp (by rw [hg1']; rfl)
    omega
  · intro hle
    rw [pushBack16_of_room fh b hle]
    rfl

theorem pushBack32_size (fh : ForwardHash) (b : Nat) (fh2 : ForwardHash)
    (hg : pushBack32 fh b = some fh2) : fh2.size = fh.size + 4 := by
  rw [pushBack32, Option.bind_eq_some] at hg
  obtain ⟨g1, hg1, hg2⟩ := hg
  have := pushBack16_size _ _ _ hg1
  have := pushBack16_size _ _ _ hg2
  omega

theorem pushBack32_isSome (fh : ForwardHash) (b : Nat) :
    (pushBack32 fh b).isSome ↔ fh.size + 4 ≤ 64 := by
  constructor
  · intro hs
    rw [Option.isSome_iff_exists] at hs
    obtain ⟨g2, hg2⟩ := hs
    rw [pushBack32, Option.bind_eq_some] at hg2
    obtain ⟨g1, hg1, hg1'⟩ := hg2
    have e1 := pushBack16_size _ _ _ hg1
    have l2 := (pushBack16_isSome g1 _).mp (by rw [hg1']; rfl)
    omega
  · intro hle
    rw [pushBack32_of_room fh b hle]
    rfl

/-- **C8.** A push whose decomposed bytes would bring the total past 64 bytes
hits the assertion (result `none`), and a push that fits never does: each
overload succeeds exactly when its byte count still fits, and on success the
size grows by exactly that byte count (no silent truncation). -/
theorem pushBack_capacity (fh : ForwardHash) (b : Nat) :
    ((pushBack8 fh b).isSome ↔ fh.size + 1 ≤ 64) ∧
    ((pushBack16 fh b).isSome ↔ fh.size + 2 ≤ 64) ∧
    ((pushBack32 fh b).isSome ↔ fh.size + 4 ≤ 64) ∧
    (∀ fh2, pushBack8 fh b = some fh2 → fh2.size = fh.size + 1) ∧
    (∀ fh2, pushBack16 fh b = some fh2 → fh2.size = fh.size + 2) ∧
    (∀ fh2, pushBack32 fh b = some fh2 → fh2.size = fh.size + 4) :=
  ⟨pushBack8_isSome fh b, pushBack16_isSome fh b, pushBack32_isSome fh b,
    fun fh2 => pushBack8_size fh b fh2, fun fh2 => pushBack16_size fh b fh2,
    fun fh2 => pushBack32_size fh b fh2⟩

/-- Witness for C8 on a 63-byte-full accumulator: a 1-byte push still fits,
2- and 4-byte pushes hit the assertion. -/
theorem pushBack_capacity_witness :
    ((pushBack8 ⟨List.replicate 63 0⟩ 9).isSome ↔
      (⟨List.replicate 63 0⟩ : ForwardHash).size + 1 ≤ 64) ∧
    ((pushBack16 ⟨List.replicate 63 0⟩ 9).isSome ↔
      (⟨List.replicate 63 0⟩ : ForwardHash).size + 2 ≤ 64) ∧
    ((pushBack32 ⟨List.replicate 63 0⟩ 9).isSome ↔
      (⟨List.replicate 63 0⟩ : ForwardHash).size + 4 ≤ 64) ∧
    (∀ fh2, pushBack8 ⟨List.replicate 63 0⟩ 9 = some fh2 →
      fh2.size = (⟨List.replicate 63 0⟩ : ForwardHash).size + 1) ∧
    (∀ fh2, pushBack16 ⟨List.replicate 63 0⟩ 9 = some fh2 →
      fh2.size = (⟨List.replicate 63 0⟩ : ForwardHash).size + 2) ∧
    (∀ fh2, pushBack32 ⟨List.replicate 63 0⟩ 9 = some fh2 →
      fh2.size = (⟨List.replicate 63 0⟩ : ForwardHash).size + 4) :=
  pushBack_capacity ⟨List.replicate 63 0⟩ 9

/-! ## qp (the per-core queue pair)

The registered packet providers are stateful C++ closures; each invocation
yields at most one packet.  We model a provider either as the proxy-queue
drain closure installed by `add_proxy` (it pops the owning queue pair's
`_proxy_packetq`) or as an upper-layer provider with its own queue of
pending packets. -/

inductive Provider
  | proxyDrain
  | upperLayer (pkts : List Packet)
deriving DecidableEq

/-- Invoke one provider: given the provider and the current proxy queue,
return the optional packet plus the updated provider and proxy queue. -/
def invokeProvider : Provider → List Packet → Option Packet × Provider × List Packet
  | Provider.proxyDrain, pq =>
    match pq with
    | [] => (none, Provider.proxyDrain, [])
    | p :: rest => (some p, Provider.proxyDrain, rest)
  | Provider.upperLayer pkts, pq =>
    match pkts with
    | [] => (none, Provider.upperLayer [], pq)
    | p :: rest => (some p, Provider.upperLayer rest, pq)

/-- One pass of the inner `for (auto&& pr : _pkt_providers)` loop of
`poll_tx`: ask each provider in registration order for one packet, append
each obtained packet to `_tx_packetq`, and break out of the pass as soon as
the queue reaches 128.  Returns `(work, providers, proxyq, txq)`. -/
def refillPass : List Provider → List Packet → List Packet →
    Nat × List Provider × List Packet × List Packet
  | [], pq, tq => (0, [], pq, tq)
  | pr :: rest, pq, tq =>
    match invokeProvider pr pq with
    | (none, pr2, pq2) =>
      let r := refillPass rest pq2 tq
      (r.1, pr2 :: r.2.1, r.2.2.1, r.2.2.2)
    | (some p, pr2, pq2) =>
      let tq2 := tq ++ [p]
      if tq2.length = 128 then (1, pr2 :: rest, pq2, tq2)
      else
        let r := refillPass rest pq2 tq2
        (r.1 + 1, pr2 :: r.2.1, r.2.2.1, r.2.2.2)

/-- The outer `do { ... } while (work && _tx_packetq.size() < 128)` loop of
`poll_tx`, with a fuel bound.  A fuel of 129 is always sufficient: every
repeated pass strictly grows the queue, which never exceeds 128. -/
def refillLoop : Nat → List Provider → List Packet → List Packet →
    List Provider × List Packet × List Packet
  | 0, prs, pq, tq => (prs, pq, tq)
  | Nat.succ fuel, prs, pq, tq =>
    let r := refillPass prs pq tq
    if r.1 ≠ 0 ∧ r.2.2.2.length < 128 then refillLoop fuel r.2.1 r.2.2.1 r.2.2.2
    else (r.2.1, r.2.2.1, r.2.2.2)

/-- The `qp` state: egress providers, forwarding proxies, proxy inbound
queue, transmit batch queue and the statistics counters (the `uint64_t`
counters live below `2 ^ 64`). -/
structure QP where
  pktProviders : List Provider
  proxies : List Nat
  proxyPacketq : List Packet
  txPacketq : List Packet
  packetsSnt : Nat
  packetsRcv : Nat
  lastTxBunch : Nat
  lastRxBunch : Nat
deriving DecidableEq

/-- A freshly constructed `qp`: empty queues, zeroed counters. -/
def qpInit : QP :=
  { pktProviders := [], proxies := [], proxyPacketq := [], txPacketq := [],
    packetsSnt := 0, packetsRcv := 0, lastTxBunch := 0, lastRxBunch := 0 }

/-- `update_rx_count(count)`: `_last_rx_bunch = count; _packets_rcv += count;`
(64-bit arithmetic). -/
def updateRxCount (q : QP) (count : Nat) : QP :=
  { q with lastRxBunch := count % 2 ^ 64,
           packetsRcv := (q.packetsRcv + count % 2 ^ 64) % 2 ^ 64 }

/-- `register_packet_provider(func)`: appends to `_pkt_providers`. -/
def registerPacketProvider (q : QP) (pr : Provider) : QP :=
  { q with pktProviders := q.pktProviders ++ [pr] }

/-- `add_proxy(cpu)`: install the proxy-queue drain provider on the first
call (when `proxies` is still empty), then append `cpu` to `proxies`. -/
def addProxy (q : QP) (cpu : Nat) : QP :=
  let q1 := if q.proxies.isEmpty then registerPacketProvider q Provider.proxyDrain else q
  { q1 with proxies := q1.proxies ++ [cpu] }

/-- `proxy_send(p)`: `_proxy_packetq.push_back(std::move(p));` -/
def proxySend (q : QP) (p : Packet) : QP :=
  { q with proxyPacketq := q.proxyPacketq ++ [p] }

/-- One invocation of the closure `add_proxy` registers: pop the front of
`_proxy_packetq` if non-empty. -/
def proxyProviderInvoke (q : QP) : Option Packet × QP :=
  let r := invokeProvider Provider.proxyDrain q.proxyPacketq
  (r.1, { q with proxyPacketq := r.2.2 })

/-- The refill phase of `poll_tx`: run only when the batch queue holds fewer
than 16 packets.  Returns the updated `(providers, proxyq, txq)`. -/
def refilledState (q : QP) : List Provider × List Packet × List Packet :=
  if q.txPacketq.length < 16 then refillLoop 129 q.pktProviders q.proxyPacketq q.txPacketq
  else (q.pktProviders, q.proxyPacketq, q.txPacketq)

/-- `poll_tx()`: refill when below the 16-packet low-water mark, then, if the
batch queue is non-empty, hand the whole batch to `send` (the default batch
`send` drains the queue and returns the count as `uint32_t`), update the
counters and return `true`; otherwise return `false`. -/
def pollTx (q : QP) : Bool × QP :=
  let r := refilledState q
  if r.2.2.isEmpty then
    (false, { q with pktProviders := r.1, proxyPacketq := r.2.1, txPacketq := r.2.2 })
  else
    let q2 : QP :=
      { q with pktProviders := r.1, proxyPacketq := r.2.1,
               txPacketq := ([] : List Packet),
               lastTxBunch := r.2.2.length % 2 ^ 32,
               packetsSnt := (q.packetsSnt + r.2.2.length % 2 ^ 32) % 2 ^ 64 }
    (true, q2)

theorem refillPass_nil (pq tq : List Packet) : refillPass [] pq tq = (0, [], pq, tq) := rfl

theorem refillPass_cons_none (pr : Provider) (rest : List Provider) (pq tq : List Packet)
    (pr2 : Provider) (pq2 : List Packet) (hi : invokeProvider pr pq = (none, pr2, pq2)) :
    refillPass (pr :: rest) pq tq =
      ((refillPass rest pq2 tq).1, pr2 :: (refillPass rest pq2 tq).2.1,
       (refillPass rest pq2 tq).2.2.1, (refillPass rest pq2 tq).2.2.2) := by
  rw [refillPass, hi]

theorem refillPass_cons_some_break (pr : Provider) (rest : List Provider)
    (pq tq : List Packet) (p : Packet) (pr2 : Provider) (pq2 : List Packet)
    (hi : invokeProvider pr pq = (some p, pr2, pq2)) (h128 : (tq ++ [p]).length = 128) :
    refillPass (pr :: rest) pq tq = (1, pr2 :: rest, pq2, tq ++ [p]) := by
  rw [refillPass, hi]
  simp only [if_pos h128]

theorem refillPass_cons_some_go (pr : Provider) (rest : List Provider)
    (pq tq : List Packet) (p : Packet) (pr2 : Provider) (pq2 : List Packet)
    (hi : invokeProvider pr pq = (some p, pr2, pq2)) (h128 : (tq ++ [p]).length ≠ 128) :
    refillPass (pr :: rest) pq tq =
      ((refillPass rest pq2 (tq ++ [p])).1 + 1,
       pr2 :: (refillPass rest pq2 (tq ++ [p])).2.1,
       (refillPass rest pq2 (tq ++ [p])).2.2.1,
       (refillPass rest pq2 (tq ++ [p])).2.2.2) := by
  rw [refillPass, hi]
  simp only [if_neg h128]

theorem refillPass_work_length (prs : List Provider) (pq tq : List Packet) :
    (refillPass prs pq tq).2.2.2.length = tq.length + (refillPass prs pq tq).1 := by
  induction prs generalizing pq tq with
  | nil => simp [refillPass_nil]
  | cons pr rest ih =>
    rcases hi : invokeProvider pr pq with ⟨op, pr2, pq2⟩
    cases op with
    | none =>
      rw [refillPass_cons_none pr rest pq tq pr2 pq2 hi]
      exact ih pq2 tq
    | some p =>
      by_cases h128 : (tq ++ [p]).length = 128
      · rw [refillPass_cons_some_break pr rest pq tq p pr2 pq2 hi h128]
        simp
      · rw [refillPass_cons_some_go pr rest pq tq p pr2 pq2 hi h128]
        have := ih pq2 (tq ++ [p])
        simp only [List.length_append, List.length_cons, List.length_nil] at this ⊢
        omega

theorem refillPass_cap (prs : List Provider) (pq tq : List Packet)
    (h : tq.length < 128) : (refillPass prs pq tq).2.2.2.length ≤ 128 := by
  induction prs generalizing pq tq with
  | nil =>
    rw [refillPass_nil]
    dsimp only
    omega
  | cons pr rest ih =>
    rcases hi : invokeProvider pr pq with ⟨op, pr2, pq2⟩
    cases op with
    | none =>
      rw [refillPass_cons_none pr rest pq tq pr2 pq2 hi]
      exact ih pq2 tq h
    | some p =>
      by_cases h128 : (tq ++ [p]).length = 128
      · rw [refillPass_cons_some_break pr rest pq tq p pr2 pq2 hi h128]
        dsimp only
        omega
      · have hlt : (tq ++ [p]).length < 128 := by
          simp only [List.length_append, List.length_cons, List.length_nil] at h128 ⊢
          omega
        rw [refillPass_cons_some_go pr rest pq tq p pr2 pq2 hi h128]
        exact ih pq2 (tq ++ [p]) hlt

theorem refillPass_extends (prs : List Provider) (pq tq : List Packet) :
    ∃ ext, (refillPass prs pq tq).2.2.2 = tq ++ ext := by
  induction prs generalizing pq tq with
  | nil => exact ⟨[], by rw [refillPass_nil]; simp⟩
  | cons pr rest ih =>
    rcases hi : invokeProvider pr pq with ⟨op, pr2, pq2⟩
    cases op with
    | none =>
      obtain ⟨ext, hext⟩ := ih pq2 tq
      exact ⟨ext, by rw [refillPass_cons_none pr rest pq tq pr2 pq2 hi]; exact hext⟩
    | some p =>
      by_cases h128 : (tq ++ [p]).length = 128
      · exact ⟨[p], by rw [refillPass_cons_some_break pr rest pq tq p pr2 pq2 hi h128]⟩
      · obtain ⟨ext, hext⟩ := ih pq2 (tq ++ [p])
        refine ⟨p :: ext, ?_⟩
        rw [refillPass_cons_some_go pr rest pq tq p pr2 pq2 hi h128]
        simpa [List.append_assoc] using hext

theorem invokeProvider_none (pr : Provider) (pq : List Packet)
    (h : (invokeProvider pr pq).1 = none) : invokeProvider pr pq = (none, pr, pq) := by
  cases pr with
  | proxyDrain => cases pq <;> simp_all [invokeProvider]
  | upperLayer pkts => cases pkts <;> simp_all [invokeProvider]

theorem refillPass_zero_id (prs : List Provider) (pq tq : List Packet)
    (h : (refillPass prs pq tq).1 = 0) : refillPass prs pq tq = (0, prs, pq, tq) := by
  induction prs generalizing pq tq with
  | nil => rw [refillPass_nil]
  | cons pr rest ih =>
    rcases hi : invokeProvider pr pq with ⟨op, pr2, pq2⟩
    cases op with
    | none =>
      have hid := invokeProvider_none pr pq (by rw [hi])
      rw [hi] at hid
      have hpr : pr2 = pr := by
        have := congrArg (fun x => x.2.1) hid
        simpa using this
      have hpq : pq2 = pq := by
        have := congrArg (fun x => x.2.2) hid
        simpa using this
      rw [refillPass_cons_none pr rest pq tq pr2 pq2 hi, hpq] at h ⊢
      dsimp only at h ⊢
      rw [ih pq tq h, hpr]
    | some p =>
      by_cases h128 : (tq ++ [p]).length = 128
      · rw [refillPass_cons_some_break pr rest pq tq p pr2 pq2 hi h128] at h
        simp at h
      · rw [refillPass_cons_some_go pr rest pq tq p pr2 pq2 hi h128] at h
        simp at h

theorem refillLoop_succ (fuel : Nat) (prs : List Provider) (pq tq : List Packet) :
    refillLoop (fuel + 1) prs pq tq =
      if (refillPass prs pq tq).1 ≠ 0 ∧ (refillPass prs pq tq).2.2.2.length < 128 then
        refillLoop fuel (refillPass prs pq tq).2.1 (refillPass prs pq tq).2.2.1
          (refillPass prs pq tq).2.2.2
      else
        ((refillPass prs pq tq).2.1, (refillPass prs pq tq).2.2.1,
          (refillPass prs pq tq).2.2.2) := rfl

theorem refillLoop_cap (fuel : Nat) (prs : List Provider) (pq tq : List Packet)
    (h : tq.length < 128) : (refillLoop fuel prs pq tq).2.2.length ≤ 128 := by
  induction fuel generalizing prs pq tq with
  | zero =>
    rw [refillLoop]
    dsimp only
    omega
  | succ fuel ih =>
    rw [refillLoop_succ]
    by_cases hc : (refillPass prs pq tq).1 ≠ 0 ∧ (refillPass prs pq tq).2.2.2.length < 128
    · rw [if_pos hc]
      exact ih _ _ _ hc.2
    · rw [if_neg hc]
      exact refillPass_cap prs pq tq h

theorem refillLoop_extends (fuel : Nat) (prs : List Provider) (pq tq : List Packet) :
    ∃ ext, (refillLoop fuel prs pq tq).2.2 = tq ++ ext := by
  induction fuel generalizing prs pq tq with
  | zero => exact ⟨[], by rw [refillLoop]; simp⟩
  | succ fuel ih =>
    rw [refillLoop_succ]
    obtain ⟨ext1, hext1⟩ := refillPass_extends prs pq tq
    by_cases hc : (refillPass prs pq tq).1 ≠ 0 ∧ (refillPass prs pq tq).2.2.2.length < 128
    · rw [if_pos hc]
      obtain ⟨ext2, hext2⟩ := ih (refillPass prs pq tq).2.1 (refillPass prs pq tq).2.2.1
        (refillPass prs pq tq).2.2.2
      exact ⟨ext1 ++ ext2, by rw [hext2, hext1, List.append_assoc]⟩
    · rw [if_neg hc]
      exact ⟨ext1, hext1⟩

theorem refillLoop_post (fuel : Nat) (prs : List Provider) (pq tq : List Packet)
    (hlen : tq.length < 128) (hfuel : 129 ≤ tq.length + fuel) :
    (refillPass (refillLoop fuel prs pq tq).1 (refillLoop fuel prs pq tq).2.1
      (refillLoop fuel prs pq tq).2.2).1 = 0 ∨
    (refillLoop fuel prs pq tq).2.2.length = 128 := by
  induction fuel generalizing prs pq tq with
  | zero => omega
  | succ fuel ih =>
    rw [refillLoop_succ]
    by_cases hc : (refillPass prs pq tq).1 ≠ 0 ∧ (refillPass prs pq tq).2.2.2.length < 128
    · rw [if_pos hc]
      have hwl := refillPass_work_length prs pq tq
      apply ih (refillPass prs pq tq).2.1 (refillPass prs pq tq).2.2.1
        (refillPass prs pq tq).2.2.2 hc.2
      omega
    · rw [if_neg hc]
      rcases not_and_or.mp hc with h0 | hbig
      · left
        have h0 : (refillPass prs pq tq).1 = 0 := by
          by_contra hne
          exact h0 hne
        have hid := refillPass_zero_id prs pq tq h0
        have e1 : (refillPass prs pq tq).2.1 = prs := by rw [hid]
        have e2 : (refillPass prs pq tq).2.2.1 = pq := by rw [hid]
        have e3 : (refillPass prs pq tq).2.2.2 = tq := by rw [hid]
        rw [e1, e2, e3, h0]
      · right
        dsimp only
        have := refillPass_cap prs pq tq hlen
        omega

theorem refilledState_of_full (q : QP) (h : 16 ≤ q.txPacketq.length) :
    refilledState q = (q.pktProviders, q.proxyPacketq, q.txPacketq) := by
  rw [refilledState, if_neg (by omega)]

theorem refilledState_cap (q : QP) (hcap : q.txPacketq.length ≤ 128) :
    (refilledState q).2.2.length ≤ 128 := by
  rw [refilledState]
  by_cases h16 : q.txPacketq.length < 16
  · rw [if_pos h16]
    exact refillLoop_cap 129 _ _ _ (by omega)
  · rw [if_neg h16]
    exact hcap

theorem refilledState_extends (q : QP) :
    ∃ ext, (refilledState q).2.2 = q.txPacketq ++ ext := by
  rw [refilledState]
  by_cases h16 : q.txPacketq.length < 16
  · rw [if_pos h16]
    exact refillLoop_extends 129 _ _ _
  · rw [if_neg h16]
    exact ⟨[], by simp⟩

theorem refilledState_post (q : QP) (h16 : q.txPacketq.length < 16) :
    (refillPass (refilledState q).1 (refilledState q).2.1 (refilledState q).2.2).1 = 0 ∨
    (refilledState q).2.2.length = 128 := by
  rw [refilledState, if_pos h16]
  exact refillLoop_post 129 _ _ _ (by omega) (by omega)

theorem pollTx_of_empty (q : QP) (h : (refilledState q).2.2 = []) :
    (pollTx q).1 = false ∧
    (pollTx q).2.pktProviders = (refilledState q).1 ∧
    (pollTx q).2.proxyPacketq = (refilledState q).2.1 ∧
    (pollTx q).2.txPacketq = [] ∧
    (pollTx q).2.packetsSnt = q.packetsSnt ∧
    (pollTx q).2.packetsRcv = q.packetsRcv ∧
    (pollTx q).2.lastTxBunch = q.lastTxBunch := by
  simp [pollTx, h]

theorem pollTx_of_nonempty (q : QP) (h : (refilledState q).2.2 ≠ []) :
    (pollTx q).1 = true ∧
    (pollTx q).2.pktProviders = (refilledState q).1 ∧
    (pollTx q).2.proxyPacketq = (refilledState q).2.1 ∧
    (pollTx q).2.txPacketq = [] ∧
    (pollTx q).2.lastTxBunch = (refilledState q).2.2.length % 2 ^ 32 ∧
    (pollTx q).2.packetsSnt = (q.packetsSnt + (refilledState q).2.2.length % 2 ^ 32) % 2 ^ 64 ∧
    (pollTx q).2.packetsRcv = q.packetsRcv := by
  simp [pollTx, List.isEmpty_iff, h]

/-- The behaviour claimed for one `poll_tx` call on queue-pair state `q`:
no refill at or above the 16-packet low-water mark; the refill only appends
to the pending batch, never grows it beyond 128 packets, and stops only once
a full pass over all providers yields no packet or the 128 cap is reached;
then the whole batch is sent and `true` returned iff the batch is non-empty. -/
def PollTxSpec (q : QP) : Prop :=
  (16 ≤ q.txPacketq.length →
    refilledState q = (q.pktProviders, q.proxyPacketq, q.txPacketq)) ∧
  (∃ ext, (refilledState q).2.2 = q.txPacketq ++ ext) ∧
  (refilledState q).2.2.length ≤ 128 ∧
  (q.txPacketq.length < 16 →
    (refillPass (refilledState q).1 (refilledState q).2.1 (refilledState q).2.2).1 = 0 ∨
    (refilledState q).2.2.length = 128) ∧
  ((pollTx q).1 = true ↔ (refilledState q).2.2 ≠ []) ∧
  ((refilledState q).2.2 ≠ [] →
    (pollTx q).2.txPacketq = [] ∧
    (pollTx q).2.lastTxBunch = (refilledState q).2.2.length ∧
    (pollTx q).2.packetsSnt = (q.packetsSnt + (refilledState q).2.2.length) % 2 ^ 64) ∧
  ((refilledState q).2.2 = [] →
    (pollTx q).1 = false ∧ (pollTx q).2.packetsSnt = q.packetsSnt ∧
    (pollTx q).2.txPacketq = []) ∧
  (pollTx q).2.pktProviders = (refilledState q).1 ∧
  (pollTx q).2.proxyPacketq = (refilledState q).2.1

/-- **C1.** For every queue-pair state whose batch queue is within its
128-packet bound (an invariant of the code), one `poll_tx` call refills only
below the 16-packet low-water mark, never grows the batch past 128, stops
refilling exactly when a full provider pass yields nothing or the cap is hit,
and sends the whole batch returning `true` iff it is non-empty. -/
theorem pollTx_correct (q : QP) (hcap : q.txPacketq.length ≤ 128) : PollTxSpec q := by
  have hrcap : (refilledState q).2.2.length ≤ 128 := refilledState_cap q hcap
  refine ⟨refilledState_of_full q, refilledState_extends q, hrcap, refilledState_post q,
    ?_, ?_, ?_, ?_, ?_⟩
  · by_cases he : (refilledState q).2.2 = []
    · have h1 := (pollTx_of_empty q he).1
      simp [h1, he]
    · have h1 := (pollTx_of_nonempty q he).1
      simp [h1, he]
  · intro hne
    obtain ⟨-, -, -, htx, hltb, hsnt, -⟩ := pollTx_of_nonempty q hne
    have hm : (refilledState q).2.2.length % 2 ^ 32 = (refilledState q).2.2.length :=
      Nat.mod_eq_of_lt (by omega)
    exact ⟨htx, by rw [hltb, hm], by rw [hsnt, hm]⟩
  · intro he
    obtain ⟨hb, -, -, htx, hsnt, -, -⟩ := pollTx_of_empty q he
    exact ⟨hb, hsnt, htx⟩
  · by_cases he : (refilledState q).2.2 = []
    · exact (pollTx_of_empty q he).2.1
    · exact (pollTx_of_nonempty q he).2.1
  · by_cases he : (refilledState q).2.2 = []
    · exact (pollTx_of_empty q he).2.2.1
    · exact (pollTx_of_nonempty q he).2.2.1

/-- Witness for C1: a queue pair with one upper-layer provider holding three
packets. -/
theorem pollTx_correct_witness :
    ({ qpInit with pktProviders := [Provider.upperLayer [21, 22, 23]] } : QP).txPacketq.length ≤ 128 ∧
    PollTxSpec { qpInit with pktProviders := [Provider.upperLayer [21, 22, 23]] } :=
  ⟨by decide, pollTx_correct _ (by decide)⟩

theorem addProxy_of_empty (q : QP) (cpu : Nat) (h : q.proxies = []) :
    addProxy q cpu =
      { q with pktProviders := q.pktProviders ++ [Provider.proxyDrain], proxies := [cpu] } := by
  simp [addProxy, registerPacketProvider, h]

theorem addProxy_of_nonempty (q : QP) (cpu : Nat) (h : q.proxies ≠ []) :
    addProxy q cpu = { q with proxies := q.proxies ++ [cpu] } := by
  simp [addProxy, List.isEmpty_iff, h]

theorem foldl_addProxy_nonempty (cpus : List Nat) (q : QP) (h : q.proxies ≠ []) :
    (cpus.foldl addProxy q).pktProviders = q.pktProviders ∧
    (cpus.foldl addProxy q).proxies = q.proxies ++ cpus := by
  induction cpus generalizing q with
  | nil => simp
  | cons c rest ih =>
    rw [List.foldl_cons, addProxy_of_nonempty q c h]
    have h2 : ({ q with proxies := q.proxies ++ [c] } : QP).proxies ≠ [] := by simp
    obtain ⟨e1, e2⟩ := ih _ h2
    refine ⟨by rw [e1], ?_⟩
    rw [e2]
    simp

/-- **C4.** Starting from a fresh queue pair, any non-empty sequence of
`add_proxy` calls installs the proxy-draining egress provider exactly once
(the provider list is exactly `[proxyDrain]`, length 1, after every call),
while the proxy/core-id list accumulates all the added core ids in order. -/
theorem addProxy_registers_once (cpus : List Nat) (h : cpus ≠ []) :
    (cpus.foldl addProxy qpInit).pktProviders = [Provider.proxyDrain] ∧
    (cpus.foldl addProxy qpInit).pktProviders.length = 1 ∧
    (cpus.foldl addProxy qpInit).proxies = cpus ∧
    (cpus.foldl addProxy qpInit).proxies.length = cpus.length := by
  obtain ⟨c, rest, rfl⟩ := List.exists_cons_of_ne_nil h
  rw [List.foldl_cons, addProxy_of_empty qpInit c rfl]
  have hq1 : ({ qpInit with pktProviders := qpInit.pktProviders ++ [Provider.proxyDrain], proxies := [c] } : QP).proxies ≠ [] := by simp
  obtain ⟨e1, e2⟩ := foldl_addProxy_nonempty rest _ hq1
  rw [e1, e2]
  simp [qpInit]

/-- Witness for C4 with two `add_proxy` calls (cores 3 then 4). -/
theorem addProxy_registers_once_witness :
    ([3, 4] : List Nat) ≠ [] ∧
    (([3, 4] : List Nat).foldl addProxy qpInit).pktProviders = [Provider.proxyDrain] ∧
    (([3, 4] : List Nat).foldl addProxy qpInit).pktProviders.length = 1 ∧
    (([3, 4] : List Nat).foldl addProxy qpInit).proxies = [3, 4] ∧
    (([3, 4] : List Nat).foldl addProxy qpInit).proxies.length = ([3, 4] : List Nat).length :=
  ⟨by decide, addProxy_registers_once [3, 4] (by decide)⟩

/-- The results of `k` successive invocations of the proxy-drain provider. -/
def drainSeq : QP → Nat → List (Option Packet)
  | _, 0 => []
  | q, Nat.succ n => (proxyProviderInvoke q).1 :: drainSeq (proxyProviderInvoke q).2 n

theorem drainSeq_succ (q : QP) (n : Nat) :
    drainSeq q (n + 1) = (proxyProviderInvoke q).1 :: drainSeq (proxyProviderInvoke q).2 n := rfl

theorem drainSeq_empty (k : Nat) (q : QP) (hq : q.proxyPacketq = []) :
    drainSeq q k = List.replicate k none := by
  induction k generalizing q with
  | zero => rfl
  | succ k ih =>
    rw [drainSeq_succ]
    have h1 : (proxyProviderInvoke q).1 = none := by
      simp [proxyProviderInvoke, invokeProvider, hq]
    have h2 : (proxyProviderInvoke q).2.proxyPacketq = [] := by
      simp [proxyProviderInvoke, invokeProvider, hq]
    rw [h1, ih _ h2, List.replicate_succ]

theorem drainSeq_spec (l : List Packet) (k : Nat) (q : QP) (hq : q.proxyPacketq = l) :
    drainSeq q (l.length + k) = l.map some ++ List.replicate k none := by
  induction l generalizing q with
  | nil => simpa using drainSeq_empty k q hq
  | cons p rest ih =>
    have hl : (p :: rest).length + k = (rest.length + k) + 1 := by
      simp only [List.length_cons]
      omega
    rw [hl, drainSeq_succ]
    have h1 : (proxyProviderInvoke q).1 = some p := by
      simp [proxyProviderInvoke, invokeProvider, hq]
    have h2 : (proxyProviderInvoke q).2.proxyPacketq = rest := by
      simp [proxyProviderInvoke, invokeProvider, hq]
    rw [h1, ih _ h2]
    simp

theorem foldl_proxySend_packetq (pkts : List Packet) (q : QP) :
    (pkts.foldl proxySend q).proxyPacketq = q.proxyPacketq ++ pkts := by
  induction pkts generalizing q with
  | nil => simp
  | cons p rest ih =>
    rw [List.foldl_cons, ih]
    simp [proxySend]

/-- **C5.** Packets enqueued via `proxy_send` in order are returned by
successive invocations of the proxy-draining provider one per invocation in
the same FIFO order, and every invocation past exhaustion returns nothing. -/
theorem proxy_fifo_drain (pkts : List Packet) (k : Nat) :
    drainSeq (pkts.foldl proxySend qpInit) (pkts.length + k) =
      pkts.map some ++ List.replicate k none :=
  drainSeq_spec pkts k _ (by simpa using foldl_proxySend_packetq pkts qpInit)

theorem addProxy_counters (q : QP) (cpu : Nat) :
    (addProxy q cpu).packetsSnt = q.packetsSnt ∧
    (addProxy q cpu).packetsRcv = q.packetsRcv := by
  by_cases h : q.proxies = []
  · rw [addProxy_of_empty q cpu h]
    exact ⟨rfl, rfl⟩
  · rw [addProxy_of_nonempty q cpu h]
    exact ⟨rfl, rfl⟩

/-- C10 as written is violated by 64-bit wrap-around: with the received
counter at `2 ^ 64 - 1`, a single `update_rx_count(1)` wraps the `uint64_t`
counter to `0`, strictly decreasing it. -/
theorem updateRxCount_wrap_counterexample :
    (updateRxCount { qpInit with packetsRcv := 2 ^ 64 - 1 } 1).packetsRcv <
      ({ qpInit with packetsRcv := 2 ^ 64 - 1 } : QP).packetsRcv := by
  show (2 ^ 64 - 1 + 1 % 2 ^ 64) % 2 ^ 64 < 2 ^ 64 - 1
  norm_num

/-- **C10 (amended).** The sent/received counters are monotonically
non-decreasing across the operations, provided the 64-bit counter additions
do not wrap: `update_rx_count` adds exactly its count to the received
counter, `poll_tx` adds the sent batch size to the sent counter, and no
operation touches the other counter (`add_proxy`/`proxy_send` touch
neither). -/
theorem counters_monotone (q : QP) (count : Nat)
    (hrc : q.packetsRcv + count < 2 ^ 64)
    (hsnt : q.packetsSnt + 128 < 2 ^ 64)
    (hcap : q.txPacketq.length ≤ 128) :
    (updateRxCount q count).packetsRcv = q.packetsRcv + count ∧
    q.packetsRcv ≤ (updateRxCount q count).packetsRcv ∧
    (updateRxCount q count).packetsSnt = q.packetsSnt ∧
    q.packetsSnt ≤ (pollTx q).2.packetsSnt ∧
    (pollTx q).2.packetsRcv = q.packetsRcv ∧
    (∀ cpu, (addProxy q cpu).packetsSnt = q.packetsSnt ∧
      (addProxy q cpu).packetsRcv = q.packetsRcv) ∧
    (∀ p, (proxySend q p).packetsSnt = q.packetsSnt ∧
      (proxySend q p).packetsRcv = q.packetsRcv) := by
  have hcount : count % 2 ^ 64 = count := Nat.mod_eq_of_lt (by omega)
  have hrx : (updateRxCount q count).packetsRcv = q.packetsRcv + count := by
    simp only [updateRxCount, hcount]
    exact Nat.mod_eq_of_lt hrc
  refine ⟨hrx, by omega, rfl, ?_, ?_, fun cpu => addProxy_counters q cpu, fun p => ⟨rfl, rfl⟩⟩
  · by_cases he : (refilledState q).2.2 = []
    · obtain ⟨-, -, -, -, hs, -, -⟩ := pollTx_of_empty q he
      omega
    · obtain ⟨-, -, -, -, -, hs, -⟩ := pollTx_of_nonempty q he
      have hlen := refilledState_cap q hcap
      have hm : (refilledState q).2.2.length % 2 ^ 32 = (refilledState q).2.2.length :=
        Nat.mod_eq_of_lt (by omega)
      rw [hs, hm, Nat.mod_eq_of_lt (by omega)]
      omega
  · by_cases he : (refilledState q).2.2 = []
    · exact (pollTx_of_empty q he).2.2.2.2.2.1
    · exact (pollTx_of_nonempty q he).2.2.2.2.2.2

/-- Witness for the amended C10 at a fresh queue pair and `count = 5`. -/
theorem counters_monotone_witness :
    (qpInit.packetsRcv + 5 < 2 ^ 64 ∧ qpInit.packetsSnt + 128 < 2 ^ 64 ∧
      qpInit.txPacketq.length ≤ 128) ∧
    ((updateRxCount qpInit 5).packetsRcv = qpInit.packetsRcv + 5 ∧
    qpInit.packetsRcv ≤ (updateRxCount qpInit 5).packetsRcv ∧
    (updateRxCount qpInit 5).packetsSnt = qpInit.packetsSnt ∧
    qpInit.packetsSnt ≤ (pollTx qpInit).2.packetsSnt ∧
    (pollTx qpInit).2.packetsRcv = qpInit.packetsRcv ∧
    (∀ cpu, (addProxy qpInit cpu).packetsSnt = qpInit.packetsSnt ∧
      (addProxy qpInit cpu).packetsRcv = qpInit.packetsRcv) ∧
    (∀ p, (proxySend qpInit p).packetsSnt = qpInit.packetsSnt ∧
      (proxySend qpInit p).packetsRcv = qpInit.packetsRcv)) :=
  ⟨⟨by norm_num [qpInit], by norm_num [qpInit], by decide⟩,
    counters_monotone qpInit 5 (by norm_num [qpInit]) (by norm_num [qpInit]) (by decide)⟩

/-! ## device (the per-core queue table and routing policy) -/

/-- `device`: the per-core `qp*` slot array (`nullptr` = `none`), the RSS
table bit width, and the (virtual, default 1) hardware queue count. -/
structure Device where
  queues : List (Option QP)
  rssTableBits : Nat
  hwQueuesCount : Nat
deriving DecidableEq

/-- `queue_for_cpu(cpu)`: `*_queues[cpu]` (still `Option`: a null slot has no
queue pair). -/
def queueForCpu (d : Device) (cpu : Nat) : Option QP := d.queues.getD cpu none

/-- `hash2qid(hash)`: `hash % hw_queues_count()` on the 32-bit hash. -/
def hash2qid (d : Device) (hash : Nat) : Nat := hash % 2 ^ 32 % d.hwQueuesCount

/-- `forward_dst(src_cpuid, hashfn)`: keep `src_cpuid` when the queue pair
may not forward; otherwise index the shifted hash modulo
`proxies.size() + 1`, with index 0 meaning "stay local" and index `k ≥ 1`
selecting `proxies[k - 1]`.  Dereferencing a null queue-pair slot is
undefined behaviour, modelled as `none`. -/
def forwardDst (d : Device) (src : Nat) (hashv : Nat) : Option Nat :=
  match queueForCpu d src with
  | none => none
  | some q =>
    if q.proxies.isEmpty then some src
    else
      let h := hashv % 2 ^ 32 / 2 ^ d.rssTableBits
      let idx := h % (q.proxies.length + 1)
      some (if idx = 0 then src else q.proxies.getD (idx - 1) 0)

/-- `hash2cpu(hash)`: `forward_dst(hash2qid(hash), [hash] { return hash; })`. -/
def hash2cpu (d : Device) (hash : Nat) : Option Nat :=
  forwardDst d (hash2qid d hash) hash

/-- `set_local_queue(dev)`: `assert(!_queues[engine.cpu_id()])` then install
the queue pair in the calling core's slot (the caller's cpu id is always
within the `smp::count`-sized table). -/
def setLocalQueue (d : Device) (cpu : Nat) (q : QP) : Option Device :=
  if cpu < d.queues.length then
    match d.queues.getD cpu none with
    | some _ => none
    | none => some { d with queues := d.queues.set cpu (some q) }
  else none

/-- **C2.** When the queue pair selected by `hash2qid` has a non-empty proxy
list, `hash2cpu` computes index `(hash >> rssTableBits) % (numProxies + 1)`;
index 0 keeps the originating queue/core, and index `k ≥ 1` selects
`proxies[k - 1]` — in particular with proxies `[A, B]`: 0 ↦ self, 1 ↦ A,
2 ↦ B. -/
theorem hash2cpu_proxy_index (d : Device) (hash : Nat) (q : QP)
    (hget : queueForCpu d (hash2qid d hash) = some q) (hne : q.proxies ≠ []) :
    hash2cpu d hash =
      some (if hash % 2 ^ 32 / 2 ^ d.rssTableBits % (q.proxies.length + 1) = 0
            then hash2qid d hash
            else q.proxies.getD
              (hash % 2 ^ 32 / 2 ^ d.rssTableBits % (q.proxies.length + 1) - 1) 0) ∧
    (∀ A B : Nat, q.proxies = [A, B] →
      hash2cpu d hash =
        some (if hash % 2 ^ 32 / 2 ^ d.rssTableBits % 3 = 0 then hash2qid d hash
              else if hash % 2 ^ 32 / 2 ^ d.rssTableBits % 3 = 1 then A else B)) := by
  have hie : ¬(q.proxies.isEmpty = true) := by simp [List.isEmpty_iff, hne]
  have hmain : hash2cpu d hash =
      some (if hash % 2 ^ 32 / 2 ^ d.rssTableBits % (q.proxies.length + 1) = 0
            then hash2qid d hash
            else q.proxies.getD
              (hash % 2 ^ 32 / 2 ^ d.rssTableBits % (q.proxies.length + 1) - 1) 0) := by
    rw [hash2cpu, forwardDst, hget]
    dsimp only
    rw [if_neg hie]
  refine ⟨hmain, fun A B hAB => ?_⟩
  have hlen : (([A, B] : List Nat).length + 1) = 3 := by simp
  rw [hmain, hAB, hlen]
  have hc : hash % 2 ^ 32 / 2 ^ d.rssTableBits % 3 = 0 ∨
      hash % 2 ^ 32 / 2 ^ d.rssTableBits % 3 = 1 ∨
      hash % 2 ^ 32 / 2 ^ d.rssTableBits % 3 = 2 := by omega
  rcases hc with h | h | h <;> rw [h] <;> simp [List.getD]

/-- Witness for C2: two queues-counted device, queue 0 has proxies `[5, 7]`,
hash 4 with one rss-table bit selects index `(4 >> 1) % 3 = 2`, i.e. core 7. -/
theorem hash2cpu_proxy_index_witness :
    (queueForCpu
        { queues := [some { qpInit with proxies := [5, 7] }], rssTableBits := 1,
          hwQueuesCount := 1 }
        (hash2qid
          { queues := [some { qpInit with proxies := [5, 7] }], rssTableBits := 1,
            hwQueuesCount := 1 } 4) = some { qpInit with proxies := [5, 7] } ∧
      ({ qpInit with proxies := [5, 7] } : QP).proxies ≠ []) ∧
    hash2cpu
      { queues := [some { qpInit with proxies := [5, 7] }], rssTableBits := 1,
        hwQueuesCount := 1 } 4 = some 7 := by
  refine ⟨⟨by decide, by decide⟩, ?_⟩
  have h := (hash2cpu_proxy_index
    { queues := [some { qpInit with proxies := [5, 7] }], rssTableBits := 1,
      hwQueuesCount := 1 } 4 { qpInit with proxies := [5, 7] }
    (by decide) (by decide)).2 5 7 rfl
  rw [h]
  decide

/-- **C3.** When the queue pair selected by the hash has no registered
proxies, `hash2cpu` returns the originating queue id picked by `hash2qid`,
independently of the rss-table-bits shift (and of the forwarding modulo). -/
theorem hash2cpu_no_proxies (d : Device) (hash : Nat) (q : QP)
    (hget : queueForCpu d (hash2qid d hash) = some q) (he : q.proxies = []) :
    hash2cpu d hash = some (hash2qid d hash) ∧
    (∀ bits : Nat,
      hash2cpu { d with rssTableBits := bits } hash = some (hash2qid d hash)) := by
  have hq : ∀ bits : Nat,
      hash2cpu { d with rssTableBits := bits } hash = some (hash2qid d hash) := by
    intro bits
    have hqid : hash2qid { d with rssTableBits := bits } hash = hash2qid d hash := rfl
    have hget2 : queueForCpu { d with rssTableBits := bits }
        (hash2qid { d with rssTableBits := bits } hash) = some q := by
      rw [hqid]
      exact hget
    rw [hash2cpu, forwardDst, hget2]
    dsimp only
    rw [if_pos (show q.proxies.isEmpty = true by simp [he]), hqid]
  have h0 : hash2cpu d hash = some (hash2qid d hash) := by
    rw [hash2cpu, forwardDst, hget]
    dsimp only
    rw [if_pos (show q.proxies.isEmpty = true by simp [he])]
  exact ⟨h0, hq⟩

/-- Witness for C3: a device whose single queue pair has no proxies maps
hash 9 (with `hw_queues_count = 1`) back to queue 0 for any shift. -/
theorem hash2cpu_no_proxies_witness :
    (queueForCpu { queues := [some qpInit], rssTableBits := 4, hwQueuesCount := 1 }
        (hash2qid { queues := [some qpInit], rssTableBits := 4, hwQueuesCount := 1 } 9) =
      some qpInit ∧ qpInit.proxies = []) ∧
    (hash2cpu { queues := [some qpInit], rssTableBits := 4, hwQueuesCount := 1 } 9 =
      some (hash2qid { queues := [some qpInit], rssTableBits := 4, hwQueuesCount := 1 } 9) ∧
    ∀ bits : Nat,
      hash2cpu { queues := [some qpInit], rssTableBits := bits, hwQueuesCount := 1 } 9 =
        some (hash2qid { queues := [some qpInit], rssTableBits := 4, hwQueuesCount := 1 } 9)) :=
  ⟨⟨by decide, by decide⟩,
    hash2cpu_no_proxies { queues := [some qpInit], rssTableBits := 4, hwQueuesCount := 1 }
      9 qpInit (by decide) (by decide)⟩

/-- **C9.** `set_local_queue` installs the queue pair in the calling core's
slot when it is empty, and hits the assertion (`none`) exactly when the slot
is already occupied; under the precondition that the slot is free the
assertion never fires. -/
theorem setLocalQueue_spec (d : Device) (cpu : Nat) (q : QP)
    (hcpu : cpu < d.queues.length) :
    (d.queues.getD cpu none = none →
      setLocalQueue d cpu q = some { d with queues := d.queues.set cpu (some q) } ∧
      ∃ d2, setLocalQueue d cpu q = some d2 ∧ queueForCpu d2 cpu = some q) ∧
    (∀ q0, d.queues.getD cpu none = some q0 → setLocalQueue d cpu q = none) := by
  constructor
  · intro hfree
    have hset : setLocalQueue d cpu q = some { d with queues := d.queues.set cpu (some q) } := by
      rw [setLocalQueue, if_pos hcpu, hfree]
    refine ⟨hset, { d with queues := d.queues.set cpu (some q) }, hset, ?_⟩
    rw [queueForCpu]
    simp [List.getD_eq_getElem?_getD, List.getElem?_set_self, hcpu]
  · intro q0 hocc
    rw [setLocalQueue, if_pos hcpu, hocc]

/-- A concrete two-slot device used by the C9 witness: slot 0 occupied,
slot 1 free. -/
def deviceW : Device :=
  { queues := [some qpInit, none], rssTableBits := 0, hwQueuesCount := 1 }

/-- Witness for C9: on `deviceW`, installing into the free slot 1 succeeds
and lands the queue pair there; a second install would hit the assertion. -/
theorem setLocalQueue_spec_witness :
    1 < deviceW.queues.length ∧
    ((deviceW.queues.getD 1 none = none →
      setLocalQueue deviceW 1 qpInit =
        some { deviceW with queues := deviceW.queues.set 1 (some qpInit) } ∧
      ∃ d2, setLocalQueue deviceW 1 qpInit = some d2 ∧ queueForCpu d2 1 = some qpInit) ∧
    (∀ q0, deviceW.queues.getD 1 none = some q0 → setLocalQueue deviceW 1 qpInit = none)) :=
  ⟨by decide, setLocalQueue_spec deviceW 1 qpInit (by decide)⟩

end net
